import Mathlib

/-!
Verification of the lookup engine of the FastAPI English/French translator
(`translator_api.py`).

Strings are embedded as `List Char`.  Python's `str.lower`, `str.strip`,
`str.split("::", 1)`, the `in` substring test and the three regular
expressions used by the program (`^(.*?)\s*\x7b`, `SEE:\s*(.*?)\s*::`,
`/[^/]+/`, `\x7d\s+`) are modelled by the executable functions below; each
definition carries a comment naming the Python code it embeds.
-/

/-- Whitespace as recognised by Python's `str.strip` / `\s` (ASCII part). -/
def isWS (c : Char) : Bool :=
  c = ' ' || c = '\t' || c = '\n' || c = '\r' || c = '\x0b' || c = '\x0c'

/-- ASCII lowercasing of one character (Python `str.lower` on the ASCII range). -/
def lowerC (c : Char) : Char :=
  if 'A' ≤ c ∧ c ≤ 'Z' then Char.ofNat (c.toNat + 32) else c

/-- `s.lower()`. -/
def lowerS (s : List Char) : List Char := s.map lowerC

/-- Drop a trailing whitespace run (the right half of Python `str.strip`). -/
def dropTrailingWS : List Char → List Char
  | [] => []
  | c :: rest =>
    match dropTrailingWS rest with
    | [] => if isWS c then [] else [c]
    | d :: t => c :: d :: t

/-- `s.strip()`: remove leading and trailing whitespace. -/
def pyStrip (s : List Char) : List Char := dropTrailingWS (s.dropWhile isWS)

/-- `line.split("::", 1)`: split at the first occurrence of `::`; `none` when
`"::" not in line` (Python then returns the one-element list). -/
def splitOnceCC : List Char → Option (List Char × List Char)
  | [] => none
  | c :: rest =>
    if c = ':' then
      match rest with
      | ':' :: tail => some ([], tail)
      | _ => (splitOnceCC rest).map (fun p => (c :: p.1, p.2))
    else (splitOnceCC rest).map (fun p => (c :: p.1, p.2))

/-- Python's substring test `needle in hay`. -/
def strContains : List Char → List Char → Bool
  | [], needle => needle.isEmpty
  | c :: t, needle => needle.isPrefixOf (c :: t) || strContains t needle

/-- The key extracted by `build_index` from one line: `re.match(r"^(.*?)\s*\x7b", line)`
matches exactly when the line contains `\x7b`, and its first group is the text
before the first `\x7b` with surrounding whitespace stripped (the non-greedy
group stops at the start of the whitespace run preceding the first brace);
the code then applies `.strip().lower()`. -/
def extractKey (line : List Char) : Option (List Char) :=
  if line.any (fun c => c = '{') then
    some (lowerS (pyStrip (line.takeWhile (fun c => ¬ c = '{'))))
  else none

/-- One `index.setdefault(key, []).append(line)` on an insertion-ordered
association list. -/
def insertIndex (index : List (List Char × List (List Char))) (key : List Char)
    (line : List Char) : List (List Char × List (List Char)) :=
  match index with
  | [] => [(key, [line])]
  | (k, ls) :: rest =>
    if k = key then (k, ls ++ [line]) :: rest
    else (k, ls) :: insertIndex rest key line

/-- `index[key]` lookup (`none` models `key not in index`). -/
def lookupIndex (index : List (List Char × List (List Char))) (key : List Char) :
    Option (List (List Char)) :=
  match index with
  | [] => none
  | (k, ls) :: rest => if k = key then some ls else lookupIndex rest key

/-- `build_index(lines)`: for each line matching `^(.*?)\s*\x7b` append it to the
bucket of its stripped, lowercased pre-brace key; other lines are skipped. -/
def build_index (lines : List (List Char)) : List (List Char × List (List Char)) :=
  lines.foldl (fun idx line =>
    match extractKey line with
    | some key => insertIndex idx key line
    | none => idx) []

/-- Scanner state machine for `re.sub(r'/[^/]+/', '', text)` (`remove_phonetics`).
The second argument is `none` in normal scanning; `some buf` means a `/` has
been read and `buf` holds the (reversed) non-slash characters read since: a
closing `/` after a non-empty body completes a match (the whole `/…/` is
dropped), `//` emits the first slash literally and restarts at the second, and
an unclosed slash at the end of input is emitted literally. -/
def phonAux : List Char → Option (List Char) → List Char
  | [], none => []
  | [], some buf => '/' :: buf.reverse
  | c :: rest, none =>
    if c = '/' then phonAux rest (some []) else c :: phonAux rest none
  | c :: rest, some buf =>
    if c = '/' then
      if buf = [] then '/' :: phonAux rest (some [])
      else phonAux rest none
    else phonAux rest (some (c :: buf))

/-- `remove_phonetics(text)`: `re.sub(r'/[^/]+/', '', text)`. -/
def remove_phonetics (s : List Char) : List Char := phonAux s none

/-- Scanner state machine for `re.sub(r'\x7d\s+', '\x7d ', text)`
(`remove_extra_spaces`).  The Bool is true while skipping the remainder of a
whitespace run that followed a `\x7d` (for which a single `' '` has already been
emitted). -/
def extraAux : Bool → List Char → List Char
  | _, [] => []
  | skipping, c :: rest =>
    if skipping ∧ isWS c = true then extraAux true rest
    else if c = '}' then
      '}' :: (match rest with
        | [] => []
        | d :: _ => if isWS d = true then ' ' :: extraAux true rest else extraAux false rest)
    else c :: extraAux false rest

/-- `remove_extra_spaces(text)`: `re.sub(r'\x7d\s+', '\x7d ', text)`. -/
def remove_extra_spaces (s : List Char) : List Char := extraAux false s

/-- The per-string cleaning of the result loop:
`remove_phonetics(remove_extra_spaces(res)).strip()`. -/
def cleanResult (s : List Char) : List Char :=
  pyStrip (remove_phonetics (remove_extra_spaces s))

/-- The final dedup-and-clean loop of `translate_word_api`: `seen` is the set of
already produced cleaned strings, each incoming result is cleaned and appended
exactly when its cleaned form is new. -/
def normalizeRes (seen : List (List Char)) : List (List Char) → List (List Char)
  | [] => []
  | r :: rest =>
    if cleanResult r ∈ seen then normalizeRes seen rest
    else cleanResult r :: normalizeRes (cleanResult r :: seen) rest

/-- Does `line` carry the (case-insensitive) marker `SEE:` at its head? -/
def seeMarkerHere (s : List Char) : Bool :=
  match s with
  | c1 :: c2 :: c3 :: c4 :: _ =>
    lowerC c1 = 's' && lowerC c2 = 'e' && lowerC c3 = 'e' && c4 = ':'
  | _ => false

/-- `extract_see_reference(line)`: `re.search(r"SEE:\s*(.*?)\s*::", line, re.I)`.
The leftmost `SEE:` that is followed (anywhere later) by `::` matches; the
group is the text strictly between the marker and the first subsequent `::`,
with surrounding whitespace trimmed (the two `\s*` absorb it), then `.strip()`
is applied (a no-op on the already-trimmed group). -/
def extract_see_reference : List Char → Option (List Char)
  | [] => none
  | c :: rest =>
    if seeMarkerHere (c :: rest) then
      match splitOnceCC ((c :: rest).drop 4) with
      | some p => some (pyStrip p.1)
      | none => extract_see_reference rest
    else extract_see_reference rest

/-- The `for line in index[key]` loop body of `find_lines_in_index`, with the
recursive resolution call abstracted as `resolve` and the mutated `visited` set
threaded through (first component: the `results` accumulated by the loop;
second: the final `visited`).  The guard `if see_ref:` is a Python truthiness
test: it recurses only when `extract_see_reference` produced a match *and* the
extracted phrase is non-empty (`""` is falsy), and otherwise appends the line
as-is — so both a missing marker and an empty SEE phrase take the append
branch. -/
def processLines
    (resolve : List Char → List (List Char) → List (List Char) × List (List Char)) :
    List (List Char) → List (List Char) → List (List Char) × List (List Char)
  | [], visited => ([], visited)
  | line :: rest, visited =>
    match extract_see_reference line with
    | some seeRef =>
      if seeRef ≠ [] then
        let r := resolve seeRef visited
        let t := processLines resolve rest r.2
        if r.1 ≠ [] ∧ r.1.length ≤ 2 then (r.1 ++ t.1, t.2)
        else if r.1 = [] then (line :: t.1, t.2)
        else (t.1, t.2)
      else
        let t := processLines resolve rest visited
        (line :: t.1, t.2)
    | none =>
      let t := processLines resolve rest visited
      (line :: t.1, t.2)

/-- `find_lines_in_index(index, search_word, visited)` with an explicit
recursion-depth fuel (the Python recursion carries no fuel; the theorems below
show the result is independent of the fuel once it exceeds the number of index
keys, i.e. the recursion terminates).  Returns `(results, visited)`. -/
def findLinesF (index : List (List Char × List (List Char))) :
    Nat → List Char → List (List Char) → List (List Char) × List (List Char)
  | 0, _, visited => ([], visited)
  | fuel + 1, searchWord, visited =>
    if lowerS searchWord ∈ visited then ([], visited)
    else
      match lookupIndex index (lowerS searchWord) with
      | none => ([], lowerS searchWord :: visited)
      | some lines =>
        processLines (fun a v => findLinesF index fuel a v) lines
          (lowerS searchWord :: visited)

/-- `find_lines_in_index(index, search_word)` as called by the endpoint
(fresh `visited=None`); the fuel `index.length + 1` dominates the recursion
depth, which is bounded by the number of distinct keys. -/
def find_lines_in_index (index : List (List Char × List (List Char)))
    (searchWord : List Char) : List (List Char) :=
  (findLinesF index (index.length + 1) searchWord []).1

/-- Number of index entries whose key is not yet in `visited`; the measure that
shrinks at every productive recursion step of `find_lines_in_index`. -/
def unvisitedKeys (index : List (List Char × List (List Char)))
    (visited : List (List Char)) : Nat :=
  ((index.map Prod.fst).filter (fun k => ¬ k ∈ visited)).length

/-- `find_lines_after_colon_from_lines(lines, search_phrase)`: keep the lines
containing `::` whose text after the first `::` contains the phrase
case-insensitively. -/
def find_lines_after_colon_from_lines (lines : List (List Char))
    (searchPhrase : List Char) : List (List Char) :=
  lines.filter (fun line =>
    match splitOnceCC line with
    | some p => strContains (lowerS p.2) (lowerS searchPhrase)
    | none => false)

/-- `[a-zA-Z]`. -/
def isAsciiLetter (c : Char) : Bool :=
  ('a' ≤ c && c ≤ 'z') || ('A' ≤ c && c ≤ 'Z')

/-- `translation_has_letters(line)`: if the line contains `::`, test
`re.search(r"[a-zA-Z]", line.split("::", 1)[1].strip())`; otherwise `True`. -/
def translation_has_letters (line : List Char) : Bool :=
  match splitOnceCC line with
  | some p => (pyStrip p.2).any isAsciiLetter
  | none => true

/-- One pass of the `for article in FRENCH_ARTICLES` loop body:
`if word.startswith(article): word = word[len(article):]`. -/
def applyArticle (cur article : List Char) : List Char :=
  if article.isPrefixOf cur then cur.drop article.length else cur

/-- `FRENCH_ARTICLES = ("le ", "la ", "les ", "l'")`. -/
def frenchArticles : List (List Char) :=
  ["le ".toList, "la ".toList, "les ".toList, "l'".toList]

/-- `clean_input(word)`: strip, lowercase, drop one leading `"to "`, then run
the article loop (note: the loop has no break, so it keeps testing the later
articles against the already-shortened word). -/
def clean_input (word : List Char) : List Char :=
  frenchArticles.foldl applyArticle
    (if "to ".toList.isPrefixOf (lowerS (pyStrip word))
     then (lowerS (pyStrip word)).drop 3
     else lowerS (pyStrip word))

/-- `"EN -> FR: "` (the f-string prefix of direct and lemma results). -/
def tagEnFr : List Char := "EN -> FR: ".toList

/-- `"FR -> EN: "`. -/
def tagFrEn : List Char := "FR -> EN: ".toList

/-- `parts[1].strip() + " :: " + parts[0].strip() if len(parts) == 2 else line`:
the side swap of the reverse fallback around the first `::`. -/
def swapLine (line : List Char) : List Char :=
  match splitOnceCC line with
  | some p => pyStrip p.2 ++ " :: ".toList ++ pyStrip p.1
  | none => line

/-- The two direct-match loops of `translate_word_api` (EN→FR then FR→EN),
each appending `tag + line` for the lines passing `translation_has_letters`. -/
def directResults (enIdx frIdx : List (List Char × List (List Char)))
    (cleaned : List Char) : List (List Char) :=
  ((find_lines_in_index enIdx cleaned).filter translation_has_letters).map
      (fun l => tagEnFr ++ l)
    ++ ((find_lines_in_index frIdx cleaned).filter translation_has_letters).map
      (fun l => tagFrEn ++ l)

/-- Body of the lemmatized-match loops: append `tag + line` when the line passes
the letters filter and the tagged line is not already present. -/
def addLineStep (tag : List Char) (acc : List (List Char)) (line : List Char) :
    List (List Char) :=
  if translation_has_letters line then
    (if (tag ++ line) ∈ acc then acc else acc ++ [tag ++ line])
  else acc

/-- One lemmatized-match loop of `translate_word_api`: for every lemma
candidate, resolve it in `idx` and fold `addLineStep` over the hits. -/
def addLemmaResults (idx : List (List Char × List (List Char))) (tag : List Char)
    (lemmas : List (List Char)) (res : List (List Char)) : List (List Char) :=
  lemmas.foldl (fun acc lm => (find_lines_in_index idx lm).foldl (addLineStep tag) acc) res

/-- The `results` list of `translate_word_api` after the direct and the two
lemmatized passes, before the reverse fallback.  The lemma candidate sets
returned by the external NLTK/SpaCy lemmatizers are parameters (`enLemmas`,
`frLemmas`), reflecting that they are outside collaborators. -/
def beforeReverse (enFrLines frEnLines : List (List Char))
    (enLemmas frLemmas : List (List Char)) (cleaned : List Char) : List (List Char) :=
  addLemmaResults (build_index frEnLines) tagFrEn frLemmas
    (addLemmaResults (build_index enFrLines) tagEnFr enLemmas
      (directResults (build_index enFrLines) (build_index frEnLines) cleaned))

/-- `rev_label`: `input_lang` is `"EN"` if the cleaned word is a key of the
EN→FR index, else `"FR"` if a key of the FR→EN index, else `"EN"`; the label is
then `"EN -> FR:"` or `"FR -> EN:"`. -/
def revLabelOf (enIdx frIdx : List (List Char × List (List Char)))
    (cleaned : List Char) : List Char :=
  if (lookupIndex enIdx cleaned).isSome then "EN -> FR:".toList
  else if (lookupIndex frIdx cleaned).isSome then "FR -> EN:".toList
  else "EN -> FR:".toList

/-- One reverse-search loop: scan raw `lines`, keep the letters-passing
matches, swap their sides and prepend `label + " "`. -/
def reverseResults (lines : List (List Char)) (label cleaned : List Char) :
    List (List Char) :=
  ((find_lines_after_colon_from_lines lines cleaned).filter translation_has_letters).map
    (fun line => label ++ ' ' :: swapLine line)

/-- The `results` list of `translate_word_api` just before dedup: the reverse
fallback runs exactly when the direct and lemma passes produced nothing. -/
def allResults (enFrLines frEnLines : List (List Char))
    (enLemmas frLemmas : List (List Char)) (cleaned : List Char) : List (List Char) :=
  if beforeReverse enFrLines frEnLines enLemmas frLemmas cleaned = [] then
    reverseResults enFrLines
        (revLabelOf (build_index enFrLines) (build_index frEnLines) cleaned) cleaned
      ++ reverseResults frEnLines
        (revLabelOf (build_index enFrLines) (build_index frEnLines) cleaned) cleaned
  else beforeReverse enFrLines frEnLines enLemmas frLemmas cleaned

/-- `translate_word_api`, reduced to its translations payload.  The external
lemmatizers are fallible collaborators: `none` models an exception escaping
`lemmatize_word_english` / `lemmatize_word_french` (the endpoint installs no
handler, so the whole request fails, modelled by propagating `none`);
`some c` models a successful call returning the candidate set `c`. -/
def translate_word_api (enFrLines frEnLines : List (List Char))
    (lemEn lemFr : List Char → Option (List (List Char))) (word : List Char) :
    Option (List (List Char)) :=
  match lemEn (clean_input word) with
  | none => none
  | some enLemmas =>
    match lemFr (clean_input word) with
    | none => none
    | some frLemmas =>
      let deduped := normalizeRes []
        (allResults enFrLines frEnLines enLemmas frLemmas (clean_input word))
      some (if deduped = [] then ["Translation not found.".toList] else deduped)

theorem lookupIndex_insertIndex (idx : List (List Char × List (List Char)))
    (k line key : List Char) :
    lookupIndex (insertIndex idx k line) key =
      if key = k then some ((lookupIndex idx k).getD [] ++ [line])
      else lookupIndex idx key := by
  induction idx with
  | nil =>
    by_cases h : key = k
    · subst h; simp [insertIndex, lookupIndex]
    · simp [insertIndex, lookupIndex, h, Ne.symm h]
  | cons hd tl ih =>
    obtain ⟨k', ls⟩ := hd
    by_cases hk : k' = k
    · subst hk
      by_cases h : key = k'
      · subst h; simp [insertIndex, lookupIndex]
      · simp [insertIndex, lookupIndex, h, Ne.symm h]
    · by_cases h : k' = key
      · subst h
        simp [insertIndex, lookupIndex, hk, Ne.symm hk]
      · simp [insertIndex, lookupIndex, hk, h, ih]

theorem lookupIndex_build_aux (lines : List (List Char))
    (idx : List (List Char × List (List Char))) (key : List Char) :
    lookupIndex (lines.foldl (fun idx line =>
        match extractKey line with
        | some k => insertIndex idx k line
        | none => idx) idx) key =
      (match lookupIndex idx key with
       | some b => some (b ++ lines.filter (fun l => extractKey l = some key))
       | none =>
         if lines.filter (fun l => extractKey l = some key) = [] then none
         else some (lines.filter (fun l => extractKey l = some key))) := by
  induction lines generalizing idx with
  | nil =>
    simp only [List.foldl_nil, List.filter_nil]
    cases lookupIndex idx key <;> simp
  | cons l ls ih =>
    simp only [List.foldl_cons]
    cases hek : extractKey l with
    | none =>
      have hfilter : List.filter (fun l => decide (extractKey l = some key)) (l :: ls) =
          List.filter (fun l => decide (extractKey l = some key)) ls := by
        simp [List.filter_cons, hek]
      rw [hfilter, ih]
    | some k =>
      by_cases hk : k = key
      · subst hk
        have hfilter : List.filter (fun l => decide (extractKey l = some k)) (l :: ls) =
            l :: List.filter (fun l => decide (extractKey l = some k)) ls := by
          simp [List.filter_cons, hek]
        rw [hfilter, ih, lookupIndex_insertIndex]
        simp only [if_pos rfl]
        cases lookupIndex idx k with
        | none => simp
        | some b => simp
      · have hfilter : List.filter (fun l => decide (extractKey l = some key)) (l :: ls) =
            List.filter (fun l => decide (extractKey l = some key)) ls := by
          simp [List.filter_cons, hek, hk]
        rw [hfilter, ih, lookupIndex_insertIndex]
        simp only [if_neg (fun h : key = k => hk h.symm)]

theorem findLinesF_succ (idx : List (List Char × List (List Char)))
    (fuel : Nat) (w : List Char) (v : List (List Char)) :
    findLinesF idx (fuel + 1) w v =
      if lowerS w ∈ v then ([], v)
      else
        match lookupIndex idx (lowerS w) with
        | none => ([], lowerS w :: v)
        | some lines =>
          processLines (fun a v' => findLinesF idx fuel a v') lines (lowerS w :: v) :=
  rfl

theorem processLines_grows
    (resolve : List Char → List (List Char) → List (List Char) × List (List Char))
    (hg : ∀ a v, v ⊆ (resolve a v).2) :
    ∀ (lines : List (List Char)) (v : List (List Char)),
      v ⊆ (processLines resolve lines v).2 := by
  intro lines
  induction lines with
  | nil => intro v; simp [processLines, List.Subset.refl]
  | cons line rest ih =>
    intro v
    cases hsee : extract_see_reference line with
    | none =>
      simp only [processLines, hsee]
      exact ih v
    | some seeRef =>
      simp only [processLines, hsee]
      have h1 : v ⊆ (resolve seeRef v).2 := hg _ _
      have h2 : (resolve seeRef v).2 ⊆ (processLines resolve rest (resolve seeRef v).2).2 :=
        ih _
      split_ifs <;> first
        | exact List.Subset.trans h1 h2
        | exact ih v

theorem findLinesF_grows (idx : List (List Char × List (List Char))) :
    ∀ (fuel : Nat) (w : List Char) (v : List (List Char)),
      v ⊆ (findLinesF idx fuel w v).2 := by
  intro fuel
  induction fuel with
  | zero => intro w v; simp [findLinesF, List.Subset.refl]
  | succ fuel ih =>
    intro w v
    rw [findLinesF_succ]
    by_cases h : lowerS w ∈ v
    · simp [h, List.Subset.refl]
    · simp only [if_neg h]
      cases hl : lookupIndex idx (lowerS w) with
      | none => exact fun x hx => List.mem_cons_of_mem _ hx
      | some lines =>
        have hsub : (lowerS w :: v) ⊆
            (processLines (fun a v' => findLinesF idx fuel a v') lines (lowerS w :: v)).2 :=
          processLines_grows _ (fun a v' => ih a v') lines _
        exact fun x hx => hsub (List.mem_cons_of_mem _ hx)

theorem filter_length_le_of_imp {α : Type} (p q : α → Bool)
    (h : ∀ a, p a = true → q a = true) :
    ∀ l : List α, (l.filter p).length ≤ (l.filter q).length := by
  intro l
  induction l with
  | nil => simp
  | cons a l ih =>
    by_cases hp : p a = true
    · simp [List.filter_cons, hp, h a hp, Nat.succ_le_succ ih]
    · have hp' : p a = false := by revert hp; cases p a <;> simp
      by_cases hq : q a = true
      · simp [List.filter_cons, hp', hq]
        exact Nat.le_succ_of_le ih
      · have hq' : q a = false := by revert hq; cases q a <;> simp
        simp [List.filter_cons, hp', hq', ih]

theorem filter_length_lt_of_witness {α : Type} (p q : α → Bool)
    (h : ∀ a, p a = true → q a = true) (x : α) :
    ∀ l : List α, x ∈ l → q x = true → p x = false →
      (l.filter p).length < (l.filter q).length := by
  intro l
  induction l with
  | nil => intro hx; exact absurd hx (List.not_mem_nil x)
  | cons a l ih =>
    intro hx hq hp
    rcases List.mem_cons.mp hx with rfl | hx'
    · simp [List.filter_cons, hp, hq]
      exact Nat.lt_succ_of_le (filter_length_le_of_imp p q h l)
    · by_cases hpa : p a = true
      · simp [List.filter_cons, hpa, h a hpa, Nat.succ_lt_succ (ih hx' hq hp)]
      · have hpa' : p a = false := by revert hpa; cases p a <;> simp
        by_cases hqa : q a = true
        · simp [List.filter_cons, hpa', hqa]
          exact Nat.lt_succ_of_lt (ih hx' hq hp)
        · have hqa' : q a = false := by revert hqa; cases q a <;> simp
          simp [List.filter_cons, hpa', hqa']
          exact ih hx' hq hp

theorem unvisitedKeys_mono (idx : List (List Char × List (List Char)))
    {v v' : List (List Char)} (h : v ⊆ v') :
    unvisitedKeys idx v' ≤ unvisitedKeys idx v := by
  apply filter_length_le_of_imp
  intro a ha
  simp only [decide_eq_true_eq] at ha ⊢
  exact fun hmem => ha (h hmem)

theorem unvisitedKeys_strict (idx : List (List Char × List (List Char)))
    {key : List Char} {v : List (List Char)}
    (hmem : key ∈ idx.map Prod.fst) (hnot : key ∉ v) :
    unvisitedKeys idx (key :: v) < unvisitedKeys idx v := by
  apply filter_length_lt_of_witness _ _ _ key _ hmem
  · simp [hnot]
  · simp
  · intro a ha
    simp only [decide_eq_true_eq] at ha ⊢
    exact fun hmem' => ha (List.mem_cons_of_mem _ hmem')

theorem unvisitedKeys_le (idx : List (List Char × List (List Char)))
    (v : List (List Char)) : unvisitedKeys idx v ≤ idx.length := by
  calc ((idx.map Prod.fst).filter (fun k => ¬ k ∈ v)).length
      ≤ (idx.map Prod.fst).length := List.length_filter_le _ _
    _ = idx.length := List.length_map _ _

theorem lookupIndex_mem_keys {idx : List (List Char × List (List Char))}
    {k : List Char} {ls : List (List Char)} (h : lookupIndex idx k = some ls) :
    k ∈ idx.map Prod.fst := by
  induction idx with
  | nil => simp [lookupIndex] at h
  | cons hd tl ih =>
    obtain ⟨k', ls'⟩ := hd
    by_cases hk : k' = k
    · subst hk; simp
    · simp only [lookupIndex, if_neg hk] at h
      simp [ih h]

theorem processLines_congr
    (r₁ r₂ : List Char → List (List Char) → List (List Char) × List (List Char))
    (P : List (List Char) → Prop)
    (hagree : ∀ a v, P v → r₁ a v = r₂ a v)
    (hgrow : ∀ a v, v ⊆ (r₂ a v).2)
    (hmono : ∀ v v', v ⊆ v' → P v → P v') :
    ∀ (lines : List (List Char)) (v : List (List Char)), P v →
      processLines r₁ lines v = processLines r₂ lines v := by
  intro lines
  induction lines with
  | nil => intro v _; rfl
  | cons line rest ih =>
    intro v hP
    cases hsee : extract_see_reference line with
    | none =>
      simp only [processLines, hsee]
      rw [ih v hP]
    | some seeRef =>
      simp only [processLines, hsee]
      by_cases hr : seeRef = []
      · rw [if_neg (fun hn => hn hr), if_neg (fun hn => hn hr), ih v hP]
      · rw [if_pos hr, if_pos hr, hagree seeRef v hP,
          ih ((r₂ seeRef v).2) (hmono _ _ (hgrow seeRef v) hP)]

theorem findLinesF_step (idx : List (List Char × List (List Char))) :
    ∀ (fuel : Nat) (w : List Char) (v : List (List Char)),
      unvisitedKeys idx v < fuel →
      findLinesF idx (fuel + 1) w v = findLinesF idx fuel w v := by
  intro fuel
  induction fuel with
  | zero => intro w v h; exact absurd h (Nat.not_lt_zero _)
  | succ fuel ih =>
    intro w v h
    rw [findLinesF_succ, findLinesF_succ]
    by_cases hv : lowerS w ∈ v
    · simp [hv]
    · simp only [if_neg hv]
      cases hl : lookupIndex idx (lowerS w) with
      | none => rfl
      | some lines =>
        apply processLines_congr _ _ (fun v' => unvisitedKeys idx v' < fuel)
        · intro a v' hP; exact ih a v' hP
        · intro a v'; exact findLinesF_grows idx fuel a v'
        · intro v' v'' hsub hP
          exact Nat.lt_of_le_of_lt (unvisitedKeys_mono idx hsub) hP
        · have hk : lowerS w ∈ idx.map Prod.fst := lookupIndex_mem_keys hl
          have hs := unvisitedKeys_strict idx hk hv
          omega

theorem findLinesF_stable (idx : List (List Char × List (List Char)))
    (w : List Char) {v : List (List Char)} {f g : Nat}
    (hf : unvisitedKeys idx v < f) (hfg : f ≤ g) :
    findLinesF idx g w v = findLinesF idx f w v := by
  induction g, hfg using Nat.le_induction with
  | base => rfl
  | succ g hg ih =>
    rw [findLinesF_step idx g w v (Nat.lt_of_lt_of_le hf hg), ih]

/-- Claim C8: `build_index` maps each line containing a brace into the bucket
keyed by the lowercased, trimmed text before the first brace (this key is
`extractKey`), preserving original file order within each bucket; lines with
no brace appear in no bucket, and every bucket entry arises from such a line
(buckets are exactly the order-preserving filters of the input lines, and no
error is raised for malformed lines). -/
theorem c8_build_index_buckets (lines : List (List Char)) (key : List Char) :
    lookupIndex (build_index lines) key =
      if lines.filter (fun l => extractKey l = some key) = [] then none
      else some (lines.filter (fun l => extractKey l = some key)) := by
  unfold build_index
  rw [lookupIndex_build_aux]
  simp [lookupIndex]

/-- Claim C2: for every index (cyclic redirects included) and every headword
the resolver terminates: the fuel-indexed model returns the same value for
every fuel beyond the key count, because a headword already in `visited`
returns empty immediately and each headword is added to `visited` before its
bucket is expanded, so the recursion depth is bounded by the number of index
keys. -/
theorem c2_resolver_terminates (idx : List (List Char × List (List Char)))
    (w : List Char) (fuel : Nat) (h : idx.length < fuel) :
    (findLinesF idx fuel w []).1 = find_lines_in_index idx w := by
  unfold find_lines_in_index
  have hv : unvisitedKeys idx [] ≤ idx.length := unvisitedKeys_le idx []
  rw [findLinesF_stable idx w (by omega : unvisitedKeys idx [] < idx.length + 1)
    (by omega : idx.length + 1 ≤ fuel)]

/-- Witness for C2 at the cyclic two-entry index of the claim
(`a` redirects to `b` and `b` redirects to `a`): the resolution of `"a"` is
fuel-independent (and, as the proof of the discharged hypothesis shows,
finite). -/
theorem c2_resolver_terminates_witness :
    (findLinesF [("a".toList, ["a {} :: SEE: b ::".toList]),
                 ("b".toList, ["b {} :: SEE: a ::".toList])] 7 "a".toList []).1 =
      find_lines_in_index [("a".toList, ["a {} :: SEE: b ::".toList]),
                 ("b".toList, ["b {} :: SEE: a ::".toList])] "a".toList :=
  c2_resolver_terminates _ _ 7 (by decide)

/-- Claim C1: on entering a headword whose bucket is in the index, the resolver
runs the bucket loop with the headword freshly added to `visited`; and for a
line of the bucket carrying a SEE redirect — a `SEE:` marker with a non-empty
extracted phrase, since the code's `if see_ref:` truthiness test treats an
empty phrase as no redirect — the loop replaces the line by the recursively
resolved results when they are non-empty of length at most 2, keeps the
original redirect line when the recursion returns nothing, and drops the line
entirely when the recursion returns more than 2 results (the recursion's
updated `visited` is threaded into the remaining iterations in all three
cases). -/
theorem c1_redirect_splice (idx : List (List Char × List (List Char)))
    (fuel : Nat) (w : List Char) (bucket : List (List Char))
    (line ref : List Char) (rest : List (List Char)) (visited : List (List Char))
    (hw : lookupIndex idx (lowerS w) = some bucket)
    (hsee : extract_see_reference line = some ref)
    (href : ¬ ref = []) :
    (findLinesF idx (fuel + 1) w [] =
      processLines (fun a v => findLinesF idx fuel a v) bucket [lowerS w]) ∧
    ((findLinesF idx fuel ref visited).1 ≠ [] ∧
        (findLinesF idx fuel ref visited).1.length ≤ 2 →
      processLines (fun a v => findLinesF idx fuel a v) (line :: rest) visited =
        ((findLinesF idx fuel ref visited).1 ++
            (processLines (fun a v => findLinesF idx fuel a v) rest
              (findLinesF idx fuel ref visited).2).1,
          (processLines (fun a v => findLinesF idx fuel a v) rest
            (findLinesF idx fuel ref visited).2).2)) ∧
    ((findLinesF idx fuel ref visited).1 = [] →
      processLines (fun a v => findLinesF idx fuel a v) (line :: rest) visited =
        (line :: (processLines (fun a v => findLinesF idx fuel a v) rest
              (findLinesF idx fuel ref visited).2).1,
          (processLines (fun a v => findLinesF idx fuel a v) rest
            (findLinesF idx fuel ref visited).2).2)) ∧
    (2 < (findLinesF idx fuel ref visited).1.length →
      processLines (fun a v => findLinesF idx fuel a v) (line :: rest) visited =
        ((processLines (fun a v => findLinesF idx fuel a v) rest
            (findLinesF idx fuel ref visited).2).1,
          (processLines (fun a v => findLinesF idx fuel a v) rest
            (findLinesF idx fuel ref visited).2).2)) := by
  refine ⟨?_, ?_, ?_, ?_⟩
  · rw [findLinesF_succ]
    simp [hw]
  · intro hcond
    simp only [processLines, hsee]
    rw [if_pos href, if_pos hcond]
  · intro h0
    simp only [processLines, hsee]
    rw [if_pos href, if_neg (fun hc => hc.1 h0), if_pos h0]
  · intro hgt
    have hne : (findLinesF idx fuel ref visited).1 ≠ [] := by
      intro h0
      rw [h0] at hgt
      simp at hgt
    simp only [processLines, hsee]
    rw [if_pos href, if_neg (fun hc => absurd hc.2 (by omega)), if_neg hne]

/-- Witness for C1, the spec's Scenario 3: `apple` redirects to `fruit`, whose
bucket has one line, so the redirect is spliced and looking up `"apple"`
returns the `fruit` entry instead of the raw SEE line. -/
theorem c1_redirect_splice_witness :
    find_lines_in_index
        [("apple".toList, ["apple {} :: SEE: fruit ::".toList]),
         ("fruit".toList, ["fruit {} :: fruit-fr".toList])] "apple".toList =
      ["fruit {} :: fruit-fr".toList] := by
  have h := c1_redirect_splice
    [("apple".toList, ["apple {} :: SEE: fruit ::".toList]),
     ("fruit".toList, ["fruit {} :: fruit-fr".toList])]
    2 "apple".toList ["apple {} :: SEE: fruit ::".toList]
    "apple {} :: SEE: fruit ::".toList "fruit".toList [] ["apple".toList]
    (by decide) (by decide) (by decide)
  have h1 := h.1
  have h2 := h.2.1 (by decide)
  unfold find_lines_in_index
  rw [show (2 + 1 : Nat) = 3 from rfl] at h1
  rw [show ([("apple".toList, ["apple {} :: SEE: fruit ::".toList]),
       ("fruit".toList, ["fruit {} :: fruit-fr".toList])].length + 1 : Nat) = 3 from by decide]
  rw [h1]
  rw [show lowerS "apple".toList = "apple".toList from by decide]
  rw [h2]
  decide

/-- Counterexample to claim C3: the article loop has no break and keeps testing
the later articles against the already-shortened word, so an input beginning
`"le la "` loses both `"le "` and `"la "`, not only `"le "`:
`clean_input("le la pomme")` is `"pomme"`, not `"la pomme"`. -/
theorem c3_counterexample :
    clean_input "le la pomme".toList = "pomme".toList ∧
      clean_input "le la pomme".toList ≠ "la pomme".toList := by
  constructor
  · decide
  · decide

/-- Claim C3 as amended: input cleaning lowercases and trims, strips at most
one leading `"to "`, and then tests the four French articles in the fixed
order `le `, `la `, `les `, `l'` against the current (possibly already
shortened) word, stripping every one that matches in turn — so several
articles can be removed from one input, e.g. `"le la pomme"` becomes
`"pomme"`. -/
theorem c3_article_cascade (word : List Char) :
    clean_input word =
      applyArticle (applyArticle (applyArticle (applyArticle
        (if "to ".toList.isPrefixOf (lowerS (pyStrip word))
         then (lowerS (pyStrip word)).drop 3
         else lowerS (pyStrip word))
        "le ".toList) "la ".toList) "les ".toList) "l'".toList := by
  rfl

/-- Counterexample to claim C4: normalizing the single result line
`"word {} :: /fo.net.iks/ translation"` does not give
`"word {} :: translation"` — the spaces on both sides of the removed phonetic
annotation survive (the whitespace collapse applies only directly after a
closing brace and runs before phonetics removal), leaving a double space. -/
theorem c4_counterexample :
    normalizeRes [] ["word {} :: /fo.net.iks/ translation".toList] ≠
      ["word {} :: translation".toList] := by
  decide

/-- Claim C4 as amended: normalizing the single result line
`"word {} :: /fo.net.iks/ translation"` yields
`"word {} ::  translation"`: the phonetic annotation is removed and the ends
are trimmed, but both spaces around the annotation remain, producing a double
space before `translation`. -/
theorem c4_normalized_value :
    normalizeRes [] ["word {} :: /fo.net.iks/ translation".toList] =
      ["word {} ::  translation".toList] := by
  decide

theorem isWS_brace : isWS '}' = false := by decide

theorem isWS_space : isWS ' ' = true := by decide

theorem extra_cons_ne (c : Char) (r : List Char) (h : ¬ c = '}') :
    extraAux false (c :: r) = c :: extraAux false r := by
  simp [extraAux, h]

theorem extraAux_true_ws (c : Char) (r : List Char) (h : isWS c = true) :
    extraAux true (c :: r) = extraAux true r := by
  simp [extraAux, h]

theorem extraAux_true_nonws (c : Char) (r : List Char) (h : isWS c = false) :
    extraAux true (c :: r) = extraAux false (c :: r) := by
  simp [extraAux, h]

theorem extra_brace_nil : extraAux false ['}'] = ['}'] := by
  simp [extraAux]

theorem extra_brace_ws (d : Char) (r' : List Char) (h : isWS d = true) :
    extraAux false ('}' :: d :: r') = '}' :: ' ' :: extraAux true (d :: r') := by
  simp [extraAux, h]

theorem extra_brace_nonws (d : Char) (r' : List Char) (h : isWS d = false) :
    extraAux false ('}' :: d :: r') = '}' :: extraAux false (d :: r') := by
  simp [extraAux, h]

theorem extraAux_true_eq : ∀ r : List Char,
    extraAux true r = extraAux false (r.dropWhile isWS) := by
  intro r
  induction r with
  | nil => rfl
  | cons c r ih =>
    by_cases h : isWS c = true
    · rw [extraAux_true_ws c r h, ih, List.dropWhile_cons, if_pos h]
    · have h' : isWS c = false := by revert h; cases isWS c <;> simp
      rw [extraAux_true_nonws c r h', List.dropWhile_cons, if_neg (by simp [h'])]

theorem extra_head_nonws (d : Char) (r' : List Char) (h : isWS d = false) :
    ∃ e t, extraAux false (d :: r') = e :: t ∧ isWS e = false := by
  by_cases hd : d = '}'
  · subst hd
    cases r' with
    | nil => exact ⟨'}', [], extra_brace_nil, isWS_brace⟩
    | cons x xs =>
      by_cases hx : isWS x = true
      · exact ⟨'}', ' ' :: extraAux true (x :: xs), extra_brace_ws x xs hx, isWS_brace⟩
      · have hx' : isWS x = false := by revert hx; cases isWS x <;> simp
        exact ⟨'}', extraAux false (x :: xs), extra_brace_nonws x xs hx', isWS_brace⟩
  · exact ⟨d, extraAux false r', extra_cons_ne d r' hd, h⟩

theorem dropWhile_head_ws_false {l : List Char} {e : Char} {t : List Char}
    (h : l.dropWhile isWS = e :: t) : isWS e = false := by
  have hh := List.head?_dropWhile_not isWS l
  rw [h] at hh
  simpa using hh

theorem extra_extra_aux : ∀ n : Nat, ∀ s : List Char, s.length ≤ n →
    extraAux false (extraAux false s) = extraAux false s := by
  intro n
  induction n with
  | zero =>
    intro s hs
    have : s = [] := List.length_eq_zero.mp (Nat.le_zero.mp hs)
    subst this; rfl
  | succ n ih =>
    intro s hs
    match s with
    | [] => rfl
    | c :: r =>
      by_cases hc : c = '}'
      · subst hc
        match r with
        | [] => rw [extra_brace_nil, extra_brace_nil]
        | d :: r' =>
          by_cases hd : isWS d = true
          · rw [extra_brace_ws d r' hd, extraAux_true_eq]
            rw [extra_brace_ws ' ' _ isWS_space, extraAux_true_ws ' ' _ isWS_space,
              extraAux_true_eq]
            have hlen : ((d :: r').dropWhile isWS).length ≤ n := by
              have h1 : ((d :: r').dropWhile isWS).length ≤ (d :: r').length :=
                (List.dropWhile_sublist _).length_le
              simp only [List.length_cons] at h1 hs ⊢
              omega
            cases ht : (d :: r').dropWhile isWS with
            | nil => rfl
            | cons e t' =>
              have hews : isWS e = false := dropWhile_head_ws_false ht
              obtain ⟨e', t'', he', hws'⟩ := extra_head_nonws e t' hews
              rw [he', List.dropWhile_cons_of_neg (by simp [hws']), ← he']
              rw [ht] at hlen
              rw [ih _ hlen]
          · have hd' : isWS d = false := by revert hd; cases isWS d <;> simp
            rw [extra_brace_nonws d r' hd']
            obtain ⟨e, t, he, hws⟩ := extra_head_nonws d r' hd'
            rw [he, extra_brace_nonws e t hws, ← he]
            have hlen : (d :: r').length ≤ n := by
              simp only [List.length_cons] at hs ⊢
              omega
            rw [ih _ hlen]
      · rw [extra_cons_ne c r hc, extra_cons_ne c (extraAux false r) hc]
        have hlen : r.length ≤ n := by
          simp only [List.length_cons] at hs
          omega
        rw [ih _ hlen]

theorem extra_extra (s : List Char) :
    remove_extra_spaces (remove_extra_spaces s) = remove_extra_spaces s :=
  extra_extra_aux s.length s (Nat.le_refl _)

theorem extra_dropWhile (s : List Char) :
    extraAux false (s.dropWhile isWS) = (extraAux false s).dropWhile isWS := by
  induction s with
  | nil => rfl
  | cons c r ih =>
    by_cases h : isWS c = true
    · have hc : ¬ c = '}' := by
        intro hc; rw [hc, isWS_brace] at h; exact Bool.false_ne_true h
      rw [List.dropWhile_cons_of_pos (by simp [h]), ih, extra_cons_ne c r hc,
        List.dropWhile_cons_of_pos (by simp [h])]
    · have h' : isWS c = false := by revert h; cases isWS c <;> simp
      rw [List.dropWhile_cons_of_neg (by simp [h'])]
      obtain ⟨e, t, he, hws⟩ := extra_head_nonws c r h'
      rw [he, List.dropWhile_cons_of_neg (by simp [hws])]

theorem dropTrailingWS_nil_iff (s : List Char) :
    dropTrailingWS s = [] ↔ s.all isWS = true := by
  induction s with
  | nil => simp [dropTrailingWS]
  | cons c r ih =>
    simp only [dropTrailingWS, List.all_cons, Bool.and_eq_true]
    cases hr : dropTrailingWS r with
    | nil =>
      by_cases hc : isWS c = true
      · simp [hc, ih.mp hr]
      · have hc' : isWS c = false := by revert hc; cases isWS c <;> simp
        simp [hc']
    | cons d t =>
      have : ¬ (r.all isWS = true) := by
        intro hall
        rw [ih.mpr hall] at hr
        exact List.noConfusion hr
      simp [this]

theorem all_isWS_extra (s : List Char) :
    (extraAux false s).all isWS = s.all isWS := by
  induction s with
  | nil => rfl
  | cons c r ih =>
    by_cases hc : c = '}'
    · subst hc
      obtain ⟨e, t, he, hws⟩ := extra_head_nonws '}' r isWS_brace
      rw [he]
      simp [List.all_cons, hws, isWS_brace]
    · rw [extra_cons_ne c r hc]
      simp [List.all_cons, ih]

theorem dropTrailingWS_extra_nil (s : List Char) :
    dropTrailingWS (extraAux false s) = [] ↔ dropTrailingWS s = [] := by
  rw [dropTrailingWS_nil_iff, dropTrailingWS_nil_iff, all_isWS_extra]

theorem dropTrailingWS_cons_shape (c : Char) (r : List Char) :
    dropTrailingWS (c :: r) = [] ∨
      ∃ t, dropTrailingWS (c :: r) = c :: t := by
  simp only [dropTrailingWS]
  cases hr : dropTrailingWS r with
  | nil =>
    by_cases hc : isWS c = true
    · left; simp [hc]
    · have hc' : isWS c = false := by revert hc; cases isWS c <;> simp
      right; exact ⟨[], by simp [hc']⟩
  | cons d t => right; exact ⟨d :: t, rfl⟩

theorem dropTrailingWS_ws_append (w t : List Char) (hw : w.all isWS = true)
    (ht : ¬ dropTrailingWS t = []) :
    dropTrailingWS (w ++ t) = w ++ dropTrailingWS t := by
  induction w with
  | nil => simp
  | cons c w' ih =>
    simp only [List.all_cons, Bool.and_eq_true] at hw
    have ih' := ih hw.2
    cases hsh : dropTrailingWS (w' ++ t) with
    | nil =>
      rw [ih'] at hsh
      cases hwt : dropTrailingWS t with
      | nil => exact absurd hwt ht
      | cons d tt => rw [hwt] at hsh; simp at hsh
    | cons d tt =>
      have hstep : dropTrailingWS (c :: (w' ++ t)) = c :: d :: tt := by
        simp only [dropTrailingWS, hsh]
      rw [List.cons_append, hstep, ← hsh, ih']
      simp

theorem dropWhile_nil_of_all {l : List Char} (h : l.all isWS = true) :
    l.dropWhile isWS = [] := by
  induction l with
  | nil => rfl
  | cons c r ih =>
    simp only [List.all_cons, Bool.and_eq_true] at h
    rw [List.dropWhile_cons_of_pos (by simp [h.1])]
    exact ih h.2

theorem dTW_cons_of_ne (c : Char) (r : List Char) (h : ¬ dropTrailingWS r = []) :
    dropTrailingWS (c :: r) = c :: dropTrailingWS r := by
  cases hsh : dropTrailingWS r with
  | nil => exact absurd hsh h
  | cons d tt => simp only [dropTrailingWS, hsh]

theorem dTW_cons_of_nil (c : Char) (r : List Char) (h : dropTrailingWS r = []) :
    dropTrailingWS (c :: r) = if isWS c then [] else [c] := by
  simp only [dropTrailingWS, h]

theorem extra_dTW_aux : ∀ n : Nat, ∀ s : List Char, s.length ≤ n →
    extraAux false (dropTrailingWS s) = dropTrailingWS (extraAux false s) := by
  intro n
  induction n with
  | zero =>
    intro s hs
    have : s = [] := List.length_eq_zero.mp (Nat.le_zero.mp hs)
    subst this; rfl
  | succ n ih =>
    intro s hs
    match s with
    | [] => rfl
    | c :: r =>
      by_cases hc : c = '}'
      · subst hc
        by_cases hr0 : dropTrailingWS r = []
        · rw [dTW_cons_of_nil '}' r hr0, if_neg (by simp [isWS_brace]), extra_brace_nil]
          have hall : r.all isWS = true := (dropTrailingWS_nil_iff r).mp hr0
          match r with
          | [] => rfl
          | d :: r' =>
            have hd : isWS d = true := by
              simp only [List.all_cons, Bool.and_eq_true] at hall
              exact hall.1
            rw [extra_brace_ws d r' hd, extraAux_true_eq, dropWhile_nil_of_all hall]
            rfl
        · match r with
          | [] => exact absurd rfl hr0
          | d :: r' =>
            have hexne : ¬ dropTrailingWS (extraAux false (d :: r')) = [] := fun hnil =>
              hr0 ((dropTrailingWS_extra_nil (d :: r')).mp hnil)
            by_cases hd : isWS d = true
            · -- whitespace run after the brace
              have hw : ((d :: r').takeWhile isWS).all isWS = true := List.all_takeWhile
              have hsplit : (d :: r').takeWhile isWS ++ (d :: r').dropWhile isWS = d :: r' :=
                List.takeWhile_append_dropWhile isWS (d :: r')
              have htnotall : ¬ (((d :: r').dropWhile isWS).all isWS = true) := by
                intro hta
                apply hr0
                apply (dropTrailingWS_nil_iff _).mpr
                rw [← hsplit, List.all_append, hw, hta]
                rfl
              have htne : ¬ dropTrailingWS ((d :: r').dropWhile isWS) = [] := fun hnil =>
                htnotall ((dropTrailingWS_nil_iff _).mp hnil)
              have hdtw : dropTrailingWS (d :: r') =
                  (d :: r').takeWhile isWS ++ dropTrailingWS ((d :: r').dropWhile isWS) := by
                conv_lhs => rw [← hsplit]
                exact dropTrailingWS_ws_append _ _ hw htne
              have htake : (d :: r').takeWhile isWS = d :: r'.takeWhile isWS := by
                rw [List.takeWhile_cons_of_pos (by simp [hd])]
              have hlent : ((d :: r').dropWhile isWS).length ≤ n := by
                have h1 : ((d :: r').dropWhile isWS).length ≤ (d :: r').length :=
                  (List.dropWhile_sublist _).length_le
                simp only [List.length_cons] at h1 hs ⊢
                omega
              -- the head of dropTrailingWS of the dropWhile part is not whitespace
              have hdwt : ∃ e t₁, dropTrailingWS ((d :: r').dropWhile isWS) = e :: t₁ ∧
                  isWS e = false := by
                cases hdrop : (d :: r').dropWhile isWS with
                | nil => rw [hdrop] at htne; exact absurd rfl htne
                | cons e t₀ =>
                  have hews : isWS e = false := dropWhile_head_ws_false hdrop
                  rcases dropTrailingWS_cons_shape e t₀ with hnil | ⟨t₁, hsh⟩
                  · rw [hdrop] at htne; exact absurd hnil htne
                  · exact ⟨e, t₁, hsh, hews⟩
              obtain ⟨e, t₁, hsh, hews⟩ := hdwt
              -- left-hand side
              have hL : extraAux false (dropTrailingWS ('}' :: d :: r')) =
                  '}' :: ' ' :: extraAux false (dropTrailingWS ((d :: r').dropWhile isWS)) := by
                rw [dTW_cons_of_ne '}' (d :: r') hr0, hdtw, htake, List.cons_append,
                  extra_brace_ws _ _ hd, extraAux_true_eq, ← List.cons_append, ← htake,
                  List.dropWhile_append_of_pos
                    (fun a ha => by
                      have := List.all_eq_true.mp hw a ha
                      simpa using this),
                  hsh, List.dropWhile_cons_of_neg (by simp [hews])]
              -- right-hand side
              have hR : dropTrailingWS (extraAux false ('}' :: d :: r')) =
                  '}' :: ' ' :: dropTrailingWS (extraAux false ((d :: r').dropWhile isWS)) := by
                rw [extra_brace_ws _ _ hd, extraAux_true_eq]
                have hinner : ¬ dropTrailingWS (extraAux false ((d :: r').dropWhile isWS)) = [] :=
                  fun hnil => htne ((dropTrailingWS_extra_nil _).mp hnil)
                have h2 : dropTrailingWS (' ' :: extraAux false ((d :: r').dropWhile isWS)) =
                    ' ' :: dropTrailingWS (extraAux false ((d :: r').dropWhile isWS)) :=
                  dTW_cons_of_ne ' ' _ hinner
                rw [dTW_cons_of_ne '}' _ (by rw [h2]; simp), h2]
              rw [hL, hR, ih _ hlent]
            · -- no whitespace after the brace
              have hd' : isWS d = false := by revert hd; cases isWS d <;> simp
              have hlen : (d :: r').length ≤ n := by
                simp only [List.length_cons] at hs ⊢
                omega
              have hdshape : ∃ t₁, dropTrailingWS (d :: r') = d :: t₁ := by
                rcases dropTrailingWS_cons_shape d r' with hnil | h
                · exact absurd hnil hr0
                · exact h
              obtain ⟨t₁, hsh⟩ := hdshape
              have hL : extraAux false (dropTrailingWS ('}' :: d :: r')) =
                  '}' :: extraAux false (dropTrailingWS (d :: r')) := by
                rw [dTW_cons_of_ne '}' (d :: r') hr0, hsh, extra_brace_nonws d t₁ hd', ← hsh]
              have hR : dropTrailingWS (extraAux false ('}' :: d :: r')) =
                  '}' :: dropTrailingWS (extraAux false (d :: r')) := by
                rw [extra_brace_nonws d r' hd', dTW_cons_of_ne '}' _ hexne]
              rw [hL, hR, ih _ hlen]
      · by_cases hr0 : dropTrailingWS r = []
        · have hall : r.all isWS = true := (dropTrailingWS_nil_iff r).mp hr0
          have hexnil : dropTrailingWS (extraAux false r) = [] :=
            (dropTrailingWS_extra_nil r).mpr hr0
          rw [dTW_cons_of_nil c r hr0, extra_cons_ne c r hc, dTW_cons_of_nil c _ hexnil]
          by_cases hcw : isWS c = true
          · rw [if_pos (by simp [hcw])]
            rfl
          · have hcw' : isWS c = false := by revert hcw; cases isWS c <;> simp
            rw [if_neg (by simp [hcw'])]
            rw [extra_cons_ne c [] hc]
            rfl
        · have hexne : ¬ dropTrailingWS (extraAux false r) = [] := fun hnil =>
            hr0 ((dropTrailingWS_extra_nil r).mp hnil)
          have hlen : r.length ≤ n := by
            simp only [List.length_cons] at hs
            omega
          rw [dTW_cons_of_ne c r hr0, extra_cons_ne c _ hc, extra_cons_ne c r hc,
            dTW_cons_of_ne c _ hexne, ih _ hlen]

theorem extra_dTW (s : List Char) :
    remove_extra_spaces (dropTrailingWS s) = dropTrailingWS (remove_extra_spaces s) :=
  extra_dTW_aux s.length s (Nat.le_refl _)

theorem dropWhile_ws_idem (l : List Char) :
    (l.dropWhile isWS).dropWhile isWS = l.dropWhile isWS := by
  induction l with
  | nil => rfl
  | cons c r ih =>
    by_cases h : isWS c = true
    · rw [List.dropWhile_cons_of_pos (by simp [h]), ih]
    · have h' : isWS c = false := by revert h; cases isWS c <;> simp
      rw [List.dropWhile_cons_of_neg (by simp [h']),
        List.dropWhile_cons_of_neg (by simp [h'])]

theorem dTW_dTW (s : List Char) :
    dropTrailingWS (dropTrailingWS s) = dropTrailingWS s := by
  induction s with
  | nil => rfl
  | cons c r ih =>
    by_cases hr : dropTrailingWS r = []
    · rw [dTW_cons_of_nil c r hr]
      by_cases hcw : isWS c = true
      · rw [if_pos (by simp [hcw])]
        rfl
      · have hcw' : isWS c = false := by revert hcw; cases isWS c <;> simp
        rw [if_neg (by simp [hcw'])]
        rw [dTW_cons_of_nil c [] rfl, if_neg (by simp [hcw'])]
    · have hne : ¬ dropTrailingWS (dropTrailingWS r) = [] := by
        rw [ih]; exact hr
      rw [dTW_cons_of_ne c r hr, dTW_cons_of_ne c _ hne, ih]

theorem dropWhile_dTW (s : List Char) :
    (dropTrailingWS s).dropWhile isWS = dropTrailingWS (s.dropWhile isWS) := by
  induction s with
  | nil => rfl
  | cons c r ih =>
    by_cases hcw : isWS c = true
    · rw [List.dropWhile_cons_of_pos (p := isWS) (by simp [hcw])]
      by_cases hr : dropTrailingWS r = []
      · rw [dTW_cons_of_nil c r hr, if_pos (by simp [hcw]), ← ih, hr]
      · rw [dTW_cons_of_ne c r hr, List.dropWhile_cons_of_pos (by simp [hcw]), ih]
    · have hcw' : isWS c = false := by revert hcw; cases isWS c <;> simp
      rw [List.dropWhile_cons_of_neg (p := isWS) (by simp [hcw'])]
      by_cases hr : dropTrailingWS r = []
      · rw [dTW_cons_of_nil c r hr, if_neg (by simp [hcw'])]
        rw [List.dropWhile_cons_of_neg (by simp [hcw'])]
      · rw [dTW_cons_of_ne c r hr, List.dropWhile_cons_of_neg (by simp [hcw'])]

theorem strip_strip (s : List Char) : pyStrip (pyStrip s) = pyStrip s := by
  unfold pyStrip
  rw [dropWhile_dTW, dropWhile_ws_idem, dTW_dTW]

theorem extra_pyStrip (s : List Char) :
    remove_extra_spaces (pyStrip (remove_extra_spaces s)) =
      pyStrip (remove_extra_spaces s) := by
  unfold pyStrip
  unfold remove_extra_spaces
  rw [extra_dTW_aux ((extraAux false s).dropWhile isWS).length _ (Nat.le_refl _),
    extra_dropWhile, extra_extra_aux s.length s (Nat.le_refl _)]

theorem phon_id_of_noSlash (s : List Char) (h : s.all (fun c => ¬ c = '/') = true) :
    remove_phonetics s = s := by
  unfold remove_phonetics
  induction s with
  | nil => rfl
  | cons c r ih =>
    simp only [List.all_cons, Bool.and_eq_true, decide_eq_true_eq] at h
    simp only [phonAux, if_neg h.1]
    rw [ih (by simp only [List.all_eq_true, decide_eq_true_eq] at h ⊢; exact h.2)]

theorem extra_all_of (p : Char → Bool) (hsp : p ' ' = true) :
    ∀ s : List Char, s.all p = true → (extraAux false s).all p = true := by
  have main : ∀ n : Nat, ∀ s : List Char, s.length ≤ n →
      s.all p = true → (extraAux false s).all p = true := by
    intro n
    induction n with
    | zero =>
      intro s hs _
      have : s = [] := List.length_eq_zero.mp (Nat.le_zero.mp hs)
      subst this; exact rfl
    | succ n ih =>
      intro s hs hall
      match s with
      | [] => rfl
      | c :: r =>
        simp only [List.all_cons, Bool.and_eq_true] at hall
        by_cases hc : c = '}'
        · subst hc
          match r with
          | [] => rw [extra_brace_nil]; simp [hall.1]
          | d :: r' =>
            by_cases hd : isWS d = true
            · rw [extra_brace_ws d r' hd, extraAux_true_eq]
              have hsub : ((d :: r').dropWhile isWS).all p = true := by
                rw [List.all_eq_true] at hall ⊢
                intro x hx
                exact hall.2 x ((List.dropWhile_sublist isWS).subset hx)
              have hlen : ((d :: r').dropWhile isWS).length ≤ n := by
                have h1 : ((d :: r').dropWhile isWS).length ≤ (d :: r').length :=
                  (List.dropWhile_sublist _).length_le
                simp only [List.length_cons] at h1 hs ⊢
                omega
              simp [hall.1, hsp, ih _ hlen hsub]
            · have hd' : isWS d = false := by revert hd; cases isWS d <;> simp
              rw [extra_brace_nonws d r' hd']
              have hlen : (d :: r').length ≤ n := by
                simp only [List.length_cons] at hs ⊢; omega
              simp [hall.1, ih _ hlen hall.2]
        · rw [extra_cons_ne c r hc]
          have hlen : r.length ≤ n := by
            simp only [List.length_cons] at hs; omega
          simp [hall.1, ih _ hlen hall.2]
  exact fun s => main s.length s (Nat.le_refl _)

theorem dTW_all_of (p : Char → Bool) :
    ∀ s : List Char, s.all p = true → (dropTrailingWS s).all p = true := by
  intro s
  induction s with
  | nil => exact fun _ => rfl
  | cons c r ih =>
    intro hall
    simp only [List.all_cons, Bool.and_eq_true] at hall
    by_cases hr : dropTrailingWS r = []
    · rw [dTW_cons_of_nil c r hr]
      by_cases hcw : isWS c = true
      · simp [hcw]
      · have hcw' : isWS c = false := by revert hcw; cases isWS c <;> simp
        simp [hcw', hall.1]
    · rw [dTW_cons_of_ne c r hr]
      simp [hall.1, ih hall.2]

theorem pyStrip_all_of (p : Char → Bool) (s : List Char) (h : s.all p = true) :
    (pyStrip s).all p = true := by
  unfold pyStrip
  apply dTW_all_of
  rw [List.all_eq_true] at h ⊢
  intro x hx
  exact h x ((List.dropWhile_sublist isWS).subset hx)

theorem remove_extra_all_of (p : Char → Bool) (hsp : p ' ' = true) (s : List Char)
    (h : s.all p = true) : (remove_extra_spaces s).all p = true := by
  unfold remove_extra_spaces
  exact extra_all_of p hsp s h

theorem cleanResult_eq_strip_extra (s : List Char)
    (h : s.all (fun c => ¬ c = '/') = true) :
    cleanResult s = pyStrip (remove_extra_spaces s) := by
  unfold cleanResult
  rw [phon_id_of_noSlash (remove_extra_spaces s)
    (remove_extra_all_of _ (by decide) s h)]

theorem cleanResult_noSlash (s : List Char) (h : s.all (fun c => ¬ c = '/') = true) :
    (cleanResult s).all (fun c => ¬ c = '/') = true := by
  rw [cleanResult_eq_strip_extra s h]
  exact pyStrip_all_of _ _ (remove_extra_all_of _ (by decide) s h)

theorem cleanResult_idem (s : List Char) (h : s.all (fun c => ¬ c = '/') = true) :
    cleanResult (cleanResult s) = cleanResult s := by
  rw [cleanResult_eq_strip_extra s h,
    cleanResult_eq_strip_extra _ (pyStrip_all_of _ _ (remove_extra_all_of _ (by decide) s h)),
    extra_pyStrip, strip_strip]

theorem normRes_spec : ∀ (l seen : List (List Char)),
    (∀ e ∈ normalizeRes seen l, (∃ x ∈ l, e = cleanResult x) ∧ e ∉ seen) ∧
      (normalizeRes seen l).Nodup := by
  intro l
  induction l with
  | nil => intro seen; simp [normalizeRes]
  | cons r rest ih =>
    intro seen
    by_cases h : cleanResult r ∈ seen
    · rw [show normalizeRes seen (r :: rest) = normalizeRes seen rest by
        simp [normalizeRes, h]]
      refine ⟨fun e he => ?_, (ih seen).2⟩
      obtain ⟨⟨x, hx, hxe⟩, hns⟩ := (ih seen).1 e he
      exact ⟨⟨x, List.mem_cons_of_mem _ hx, hxe⟩, hns⟩
    · rw [show normalizeRes seen (r :: rest) =
          cleanResult r :: normalizeRes (cleanResult r :: seen) rest by
        simp [normalizeRes, h]]
      constructor
      · intro e he
        rcases List.mem_cons.mp he with rfl | he'
        · exact ⟨⟨r, List.mem_cons_self _ _, rfl⟩, h⟩
        · obtain ⟨⟨x, hx, hxe⟩, hns⟩ := (ih (cleanResult r :: seen)).1 e he'
          refine ⟨⟨x, List.mem_cons_of_mem _ hx, hxe⟩, fun hmem => hns ?_⟩
          exact List.mem_cons_of_mem _ hmem
      · rw [List.nodup_cons]
        refine ⟨fun hmem => ?_, (ih (cleanResult r :: seen)).2⟩
        obtain ⟨-, hns⟩ := (ih (cleanResult r :: seen)).1 _ hmem
        exact hns (List.mem_cons_self _ _)

theorem normRes_fixed : ∀ (l seen : List (List Char)),
    (∀ e ∈ l, cleanResult e = e) → l.Nodup → (∀ e ∈ l, e ∉ seen) →
    normalizeRes seen l = l := by
  intro l
  induction l with
  | nil => intro seen _ _ _; rfl
  | cons r rest ih =>
    intro seen hc hnd hns
    have hcr : cleanResult r = r := hc r (List.mem_cons_self _ _)
    have hrs : r ∉ seen := hns r (List.mem_cons_self _ _)
    rw [show normalizeRes seen (r :: rest) =
        cleanResult r :: normalizeRes (cleanResult r :: seen) rest by
      simp [normalizeRes, hcr ▸ hrs]]
    rw [hcr]
    rw [List.nodup_cons] at hnd
    rw [ih (r :: seen) (fun e he => hc e (List.mem_cons_of_mem _ he)) hnd.2
      (fun e he => by
        intro hmem
        rcases List.mem_cons.mp hmem with rfl | hmem'
        · exact hnd.1 he
        · exact hns e (List.mem_cons_of_mem _ he) hmem')]

/-- Counterexample to claim C5: normalization is not idempotent.  Removing the
non-overlapping phonetic matches of `/[^/]+/` can create a new match out of
previously unmatched slashes: `"x//a/b/"` cleans to `"x/b/"`, which on a second
pass cleans further to `"x"`, so applying the normalizer twice to
`["x//a/b/"]` is not the same as applying it once. -/
theorem c5_counterexample :
    normalizeRes [] (normalizeRes [] ["x//a/b/".toList]) ≠
      normalizeRes [] ["x//a/b/".toList] := by
  decide

/-- Claim C5 as amended: the normalizer (per-string cleaning plus
first-occurrence deduplication) is idempotent on every sequence of result
strings that contain no `'/'` character (on slash-free strings the phonetics
pass is the identity, and the brace-space collapse and trim stabilise after
one pass; slashes are the one source of non-idempotence, as the
counterexample shows). -/
theorem c5_normalize_idempotent (X : List (List Char))
    (h : ∀ s ∈ X, s.all (fun c => ¬ c = '/') = true) :
    normalizeRes [] (normalizeRes [] X) = normalizeRes [] X := by
  apply normRes_fixed
  · intro e he
    obtain ⟨⟨x, hx, hxe⟩, -⟩ := (normRes_spec X []).1 e he
    rw [hxe]
    exact cleanResult_idem x (h x hx)
  · exact (normRes_spec X []).2
  · intro e _ hmem
    exact absurd hmem (List.not_mem_nil e)

/-- Witness for the amended C5 on a slash-free sequence with a brace-space
artifact and a duplicate-after-cleaning pair. -/
theorem c5_normalize_idempotent_witness :
    normalizeRes [] (normalizeRes [] ["w {}  x".toList, "w {} x ".toList]) =
      normalizeRes [] ["w {}  x".toList, "w {} x ".toList] :=
  c5_normalize_idempotent _ (by decide)

theorem thl_letters {line pre post : List Char}
    (hl : translation_has_letters line = true)
    (hs : splitOnceCC line = some (pre, post)) :
    (pyStrip post).any isAsciiLetter = true := by
  unfold translation_has_letters at hl
  rw [hs] at hl
  exact hl

theorem mem_foldl_addLineStep (tag : List Char) :
    ∀ (ls : List (List Char)) (acc : List (List Char)) (r : List Char),
      r ∈ ls.foldl (addLineStep tag) acc →
      r ∈ acc ∨ ∃ line, translation_has_letters line = true ∧ r = tag ++ line := by
  intro ls
  induction ls with
  | nil => intro acc r h; exact Or.inl h
  | cons l ls ih =>
    intro acc r h
    rcases ih _ r h with hacc | hex
    · unfold addLineStep at hacc
      by_cases hl : translation_has_letters l = true
      · rw [if_pos hl] at hacc
        by_cases hmem : (tag ++ l) ∈ acc
        · rw [if_pos hmem] at hacc; exact Or.inl hacc
        · rw [if_neg hmem] at hacc
          rcases List.mem_append.mp hacc with h1 | h2
          · exact Or.inl h1
          · exact Or.inr ⟨l, hl, by simpa using h2⟩
      · rw [if_neg hl] at hacc; exact Or.inl hacc
    · exact Or.inr hex

theorem mem_addLemmaResults (idx : List (List Char × List (List Char)))
    (tag : List Char) :
    ∀ (lemmas : List (List Char)) (res : List (List Char)) (r : List Char),
      r ∈ addLemmaResults idx tag lemmas res →
      r ∈ res ∨ ∃ line, translation_has_letters line = true ∧ r = tag ++ line := by
  unfold addLemmaResults
  intro lemmas
  induction lemmas with
  | nil => intro res r h; exact Or.inl h
  | cons lm lms ih =>
    intro res r h
    rcases ih _ r h with hin | hex
    · exact mem_foldl_addLineStep tag _ _ r hin
    · exact Or.inr hex

theorem mem_directResults (enIdx frIdx : List (List Char × List (List Char)))
    (cleaned r : List Char) (h : r ∈ directResults enIdx frIdx cleaned) :
    ∃ line, translation_has_letters line = true ∧
      (r = tagEnFr ++ line ∨ r = tagFrEn ++ line) := by
  unfold directResults at h
  rcases List.mem_append.mp h with h1 | h2
  · obtain ⟨line, hline, rfl⟩ := List.mem_map.mp h1
    exact ⟨line, (List.mem_filter.mp hline).2, Or.inl rfl⟩
  · obtain ⟨line, hline, rfl⟩ := List.mem_map.mp h2
    exact ⟨line, (List.mem_filter.mp hline).2, Or.inr rfl⟩

theorem mem_reverseResults (lines : List (List Char)) (label cleaned r : List Char)
    (h : r ∈ reverseResults lines label cleaned) :
    ∃ line, translation_has_letters line = true ∧ r = label ++ ' ' :: swapLine line := by
  unfold reverseResults at h
  obtain ⟨line, hline, rfl⟩ := List.mem_map.mp h
  exact ⟨line, (List.mem_filter.mp hline).2, rfl⟩

/-- Claim C6: every string in the pre-dedup result list — whether from the
direct passes, a lemma pass, or the reverse fallback — is a tagged form of a
candidate line that passed `translation_has_letters`; in particular, whenever
that candidate contains `::`, the text after its first `::` contains an
(ASCII) alphabetic character.  (A candidate with no `::` at all passes the
filter vacuously, as the filter returns `True` for such lines.) -/
theorem c6_letters_filter (enF frF : List (List Char))
    (enLem frLem : List (List Char)) (cleaned : List Char) (r : List Char)
    (hr : r ∈ allResults enF frF enLem frLem cleaned) :
    ∃ line, translation_has_letters line = true ∧
      (∀ pre post, splitOnceCC line = some (pre, post) →
        (pyStrip post).any isAsciiLetter = true) ∧
      (r = tagEnFr ++ line ∨ r = tagFrEn ++ line ∨
        r = revLabelOf (build_index enF) (build_index frF) cleaned ++
          ' ' :: swapLine line) := by
  unfold allResults at hr
  by_cases hb : beforeReverse enF frF enLem frLem cleaned = []
  · rw [if_pos hb] at hr
    rcases List.mem_append.mp hr with h1 | h2
    · obtain ⟨line, hl, hr'⟩ := mem_reverseResults _ _ _ _ h1
      exact ⟨line, hl, fun pre post hs => thl_letters hl hs, Or.inr (Or.inr hr')⟩
    · obtain ⟨line, hl, hr'⟩ := mem_reverseResults _ _ _ _ h2
      exact ⟨line, hl, fun pre post hs => thl_letters hl hs, Or.inr (Or.inr hr')⟩
  · rw [if_neg hb] at hr
    unfold beforeReverse at hr
    rcases mem_addLemmaResults _ _ _ _ _ hr with h1 | ⟨line, hl, hr'⟩
    · rcases mem_addLemmaResults _ _ _ _ _ h1 with h2 | ⟨line, hl, hr'⟩
      · obtain ⟨line, hl, hr'⟩ := mem_directResults _ _ _ _ h2
        rcases hr' with h | h
        · exact ⟨line, hl, fun pre post hs => thl_letters hl hs, Or.inl h⟩
        · exact ⟨line, hl, fun pre post hs => thl_letters hl hs, Or.inr (Or.inl h)⟩
      · exact ⟨line, hl, fun pre post hs => thl_letters hl hs, Or.inl hr'⟩
    · exact ⟨line, hl, fun pre post hs => thl_letters hl hs, Or.inr (Or.inl hr')⟩

/-- Witness for C6 at a concrete dictionary: the result
`"EN -> FR: cat {} :: chat"` of looking up `"cat"` comes from a candidate line
passing the letters filter. -/
theorem c6_letters_filter_witness :
    ∃ line, translation_has_letters line = true ∧
      (∀ pre post, splitOnceCC line = some (pre, post) →
        (pyStrip post).any isAsciiLetter = true) ∧
      ("EN -> FR: cat {} :: chat".toList = tagEnFr ++ line ∨
        "EN -> FR: cat {} :: chat".toList = tagFrEn ++ line ∨
        "EN -> FR: cat {} :: chat".toList =
          revLabelOf (build_index ["cat {} :: chat".toList]) (build_index [])
            "cat".toList ++ ' ' :: swapLine line) :=
  c6_letters_filter ["cat {} :: chat".toList] [] ["cat".toList] ["cat".toList]
    "cat".toList "EN -> FR: cat {} :: chat".toList (by decide)

/-- Claim C7: the reverse fallback runs exactly when the direct and
lemma-expanded passes produced zero results; it scans the raw lines of both
files, keeping precisely the lines containing `::` whose text after the first
`::` contains the cleaned word case-insensitively, swaps the two sides of each
match around its first `::` (`swapLine`, inside `reverseResults`), and labels
every match from either file with the single direction given by the language
guess: `"EN -> FR:"` when the cleaned word is a key of the EN→FR index, else
`"FR -> EN:"` when a key of the FR→EN index, else `"EN -> FR:"`. -/
theorem c7_reverse_fallback (enF frF : List (List Char))
    (enLem frLem : List (List Char)) (cleaned : List Char) :
    (¬ beforeReverse enF frF enLem frLem cleaned = [] →
      allResults enF frF enLem frLem cleaned =
        beforeReverse enF frF enLem frLem cleaned) ∧
    (beforeReverse enF frF enLem frLem cleaned = [] →
      allResults enF frF enLem frLem cleaned =
        reverseResults enF
            (revLabelOf (build_index enF) (build_index frF) cleaned) cleaned
          ++ reverseResults frF
            (revLabelOf (build_index enF) (build_index frF) cleaned) cleaned) ∧
    (∀ (lines : List (List Char)) (line : List Char),
      line ∈ find_lines_after_colon_from_lines lines cleaned ↔
        line ∈ lines ∧ ∃ pre post, splitOnceCC line = some (pre, post) ∧
          strContains (lowerS post) (lowerS cleaned) = true) ∧
    ((lookupIndex (build_index enF) cleaned).isSome = true →
      revLabelOf (build_index enF) (build_index frF) cleaned = "EN -> FR:".toList) ∧
    ((lookupIndex (build_index enF) cleaned).isSome = false →
      (lookupIndex (build_index frF) cleaned).isSome = true →
      revLabelOf (build_index enF) (build_index frF) cleaned = "FR -> EN:".toList) ∧
    ((lookupIndex (build_index enF) cleaned).isSome = false →
      (lookupIndex (build_index frF) cleaned).isSome = false →
      revLabelOf (build_index enF) (build_index frF) cleaned = "EN -> FR:".toList) := by
  refine ⟨?_, ?_, ?_, ?_, ?_, ?_⟩
  · intro hb
    unfold allResults
    rw [if_neg hb]
  · intro hb
    unfold allResults
    rw [if_pos hb]
  · intro lines line
    unfold find_lines_after_colon_from_lines
    rw [List.mem_filter]
    constructor
    · rintro ⟨hmem, hp⟩
      refine ⟨hmem, ?_⟩
      cases hs : splitOnceCC line with
      | none => rw [hs] at hp; exact absurd hp (by simp)
      | some p =>
        obtain ⟨a, b⟩ := p
        rw [hs] at hp
        exact ⟨a, b, rfl, hp⟩
    · rintro ⟨hmem, pre, post, hs, hc⟩
      refine ⟨hmem, ?_⟩
      rw [hs]
      exact hc
  · intro h1
    unfold revLabelOf
    rw [if_pos h1]
  · intro h1 h2
    unfold revLabelOf
    rw [if_neg (by simp [h1]), if_pos h2]
  · intro h1 h2
    unfold revLabelOf
    rw [if_neg (by simp [h1]), if_neg (by simp [h2])]

/-- Witness for C7 at a concrete input with zero direct and lemma results:
the output is exactly the labelled, swapped reverse matches of both files. -/
theorem c7_reverse_fallback_witness :
    allResults ["chien {} :: dog".toList] [] ["dog".toList] ["dog".toList]
        "dog".toList =
      reverseResults ["chien {} :: dog".toList]
          (revLabelOf (build_index ["chien {} :: dog".toList]) (build_index [])
            "dog".toList) "dog".toList
        ++ reverseResults []
          (revLabelOf (build_index ["chien {} :: dog".toList]) (build_index [])
            "dog".toList) "dog".toList :=
  (c7_reverse_fallback ["chien {} :: dog".toList] [] ["dog".toList]
    ["dog".toList] "dog".toList).2.1 (by decide)

/-- Counterexample to claim C9: the endpoint installs no handler around the
lemmatizer calls, so a failing English lemmatizer does not degrade to "no
extra candidates" — the request fails (models as `none`) instead of returning
the translations that the same dictionaries produce when the lemmatizer
returns only the original word. -/
theorem c9_counterexample :
    translate_word_api ["cat {} :: chat".toList] []
        (fun _ => Option.none) (fun a => some [a]) "cat".toList ≠
      translate_word_api ["cat {} :: chat".toList] []
        (fun a => some [a]) (fun a => some [a]) "cat".toList := by
  decide

/-- Claim C9 as amended: a lemmatizer backend failure is propagated as a
failure of the whole translation request: if the English lemmatizer call
fails, or the English call succeeds and the French one fails, the endpoint
produces no translation response at all (no fallback to "no extra
candidates" exists in the code). -/
theorem c9_failure_propagates (enF frF : List (List Char))
    (lemEn lemFr : List Char → Option (List (List Char))) (word : List Char) :
    (lemEn (clean_input word) = none →
      translate_word_api enF frF lemEn lemFr word = none) ∧
    (∀ L, lemEn (clean_input word) = some L →
      lemFr (clean_input word) = none →
      translate_word_api enF frF lemEn lemFr word = none) := by
  constructor
  · intro h
    unfold translate_word_api
    rw [h]
  · intro L h1 h2
    unfold translate_word_api
    rw [h1, h2]

/-- Witness for the amended C9: a concrete request with a failing French
lemmatizer yields no response. -/
theorem c9_failure_propagates_witness :
    translate_word_api ["cat {} :: chat".toList] []
        (fun a => some [a]) (fun _ => Option.none) "cat".toList = none :=
  (c9_failure_propagates ["cat {} :: chat".toList] []
    (fun a => some [a]) (fun _ => Option.none) "cat".toList).2
    ["cat".toList] rfl rfl

/-- Counterexample to claim C10: an input that is only the infinitive marker
plus whitespace does not clean to the empty string — `clean_input("to ")` is
`"to"`, because the input is stripped before the `startswith("to ")` test, so
the marker no longer carries its trailing space. -/
theorem c10_counterexample :
    clean_input "to ".toList = "to".toList ∧ clean_input "to ".toList ≠ [] := by
  constructor
  · decide
  · decide

theorem strContains_nil (hay : List Char) : strContains hay [] = true := by
  induction hay with
  | nil => rfl
  | cons c t ih => simp [strContains, List.isPrefixOf]

theorem falc_nil_phrase (lines : List (List Char)) :
    find_lines_after_colon_from_lines lines [] =
      lines.filter (fun l => (splitOnceCC l).isSome) := by
  unfold find_lines_after_colon_from_lines
  apply List.filter_congr
  intro l _
  cases hs : splitOnceCC l with
  | none => simp [hs]
  | some p => simp [hs, lowerS, strContains_nil]

/-- Claim C10 as amended: some inputs (e.g. `"l'"`, which is exactly an
article) clean to the empty string — but not `"to "`, which strips to `"to"`
before the `startswith("to ")` test, see the counterexample.  When the cleaned
word is empty, the empty string is a key of neither index, and the direct and
lemma passes produced nothing, the reverse fallback matches every raw line of
both files that contains `::` and whose translation side has a Latin letter
(the empty string is a substring of every translation side), labelling them
all `"EN -> FR:"`. -/
theorem c10_empty_cleaned_reverse (enF frF : List (List Char))
    (enLem frLem : List (List Char)) (word : List Char)
    (hclean : clean_input word = [])
    (hk1 : lookupIndex (build_index enF) [] = none)
    (hk2 : lookupIndex (build_index frF) [] = none)
    (hbefore : beforeReverse enF frF enLem frLem [] = []) :
    allResults enF frF enLem frLem (clean_input word) =
      (enF.filter (fun l => (splitOnceCC l).isSome && translation_has_letters l)).map
        (fun l => "EN -> FR:".toList ++ ' ' :: swapLine l)
      ++ (frF.filter (fun l => (splitOnceCC l).isSome && translation_has_letters l)).map
        (fun l => "EN -> FR:".toList ++ ' ' :: swapLine l) := by
  rw [hclean]
  unfold allResults
  rw [if_pos hbefore]
  have hlabel : revLabelOf (build_index enF) (build_index frF) [] =
      "EN -> FR:".toList := by
    unfold revLabelOf
    rw [hk1, hk2]
    simp
  rw [hlabel]
  unfold reverseResults
  rw [falc_nil_phrase, falc_nil_phrase, List.filter_filter, List.filter_filter]
  rw [List.filter_congr
      (fun (l : List Char) _ => Bool.and_comm (translation_has_letters l)
        (splitOnceCC l).isSome),
    List.filter_congr
      (fun (l : List Char) _ => Bool.and_comm (translation_has_letters l)
        (splitOnceCC l).isSome)]

/-- Witness for the amended C10: the input `"l'"` cleans to the empty string,
and with a one-line EN file the reverse fallback returns that line (its
translation side contains the empty string and has letters), swapped and
labelled `"EN -> FR:"`. -/
theorem c10_empty_cleaned_reverse_witness :
    allResults ["chat {} :: cat".toList] [] [[]] [[]]
        (clean_input "l'".toList) =
      (["chat {} :: cat".toList].filter
          (fun l => (splitOnceCC l).isSome && translation_has_letters l)).map
        (fun l => "EN -> FR:".toList ++ ' ' :: swapLine l)
      ++ (([] : List (List Char)).filter
          (fun l => (splitOnceCC l).isSome && translation_has_letters l)).map
        (fun l => "EN -> FR:".toList ++ ' ' :: swapLine l) :=
  c10_empty_cleaned_reverse ["chat {} :: cat".toList] [] [[]] [[]] "l'".toList
    (by decide) (by decide) (by decide) (by decide)
